import Mathlib

/-!
# Verification of the `rice_coder` Rice/Golomb codec

Shallow embedding of `src/lib.rs`.  Machine integers are modelled as `Nat`
with explicit `% 2 ^ w` where the source type can wrap (`u64` bit buffer,
`u8` lengths, `u32` decoded values).  Rust `while` loops are modelled as
structurally recursive functions on a fuel argument whose call-site value
provably dominates the number of iterations the loop can perform, so that
every definition is executable by the kernel.  Panics (`assert!`,
out-of-bounds indexing) are modelled with `Option`, `none` being the panic.
-/

/-! ## Parameter estimator

`estimate_optimal_k(values: &[u32], percentile: f64) -> u8`.
The `f64` percentile is modelled as an exact rational; every floating-point
operation the source performs on it (division by 100, multiplication by the
length, `round`, saturating `as usize` cast) is monotone under IEEE
round-to-nearest, matching the exact-rational operations used here.
`u32::leading_zeros` is `32 - Nat.size` (for inputs below `2 ^ 32`), and
Rust's `f64::round` (half away from zero) composed with the saturating
cast to `usize` agrees with Mathlib's `round` (half up) composed with
`Int.toNat`: the two differ only at negative half-integers, where both
casts collapse the result to `0`. -/

def estimate_optimal_k (values : List Nat) (percentile : ℚ) : Nat :=
  if values = [] then 0
  else
    let sorted_values := List.insertionSort (· ≤ ·) values
    let percentile_index :=
      (round (percentile / 100 * (sorted_values.length : ℚ))).toNat
    let percentile_index := min percentile_index (sorted_values.length - 1)
    let value_at_percentile := sorted_values.getD percentile_index 0
    32 - (32 - Nat.size value_at_percentile)

/-! ## Encoder state

`struct RiceCoder<const K: u8> { buffer: u64, buffer_len: u8 }`.
`max_buffer_len` is a ghost field recording the largest number of valid
bits ever claimed to be in the buffer (`buffer_len` just after a
`write_bits_to_buffer` call); it does not influence any computed byte. -/

structure RiceCoder where
  buffer : Nat
  buffer_len : Nat
  max_buffer_len : Nat
deriving DecidableEq

/-- `RiceCoder::new()` -/
def RiceCoder.new : RiceCoder := ⟨0, 0, 0⟩

/-- `write_bits_to_buffer`: `buffer = (buffer << num_bits) | value as u64;
buffer_len += num_bits` with `u64` / `u8` wrapping made explicit. -/
def write_bits_to_buffer (c : RiceCoder) (value : Nat) (num_bits : Nat) : RiceCoder :=
  { buffer := ((c.buffer <<< num_bits) % 2 ^ 64) ||| value
    buffer_len := (c.buffer_len + num_bits) % 2 ^ 8
    max_buffer_len := max c.max_buffer_len (c.buffer_len + num_bits) }

/-- The `while self.buffer_len >= 8` loop of `flush_buffer`, as a fueled
recursion over `(buffer, buffer_len, output)`.  Each iteration lowers
`buffer_len` by 8, so fuel equal to the initial `buffer_len` dominates the
iteration count. -/
def flush_loop : Nat → Nat → Nat → List Nat → Nat × Nat × List Nat
  | 0, buffer, len, output => (buffer, len, output)
  | fuel + 1, buffer, len, output =>
    if 8 ≤ len then
      flush_loop fuel (buffer % 2 ^ (len - 8)) (len - 8)
        (output ++ [(buffer >>> (len - 8)) % 2 ^ 8])
    else (buffer, len, output)

/-- `flush_buffer(&mut self, output: &mut Vec<u8>)`. -/
def flush_buffer (c : RiceCoder) (output : List Nat) : RiceCoder × List Nat :=
  let r := flush_loop c.buffer_len c.buffer c.buffer_len output
  (⟨r.1, r.2.1, c.max_buffer_len⟩, r.2.2)

/-- The `while remaining >= 32` loop in `encode` writing blocks of 32
one-bits.  `remaining` drops by 32 per iteration, so fuel equal to the
initial `remaining` (the quotient) dominates the iteration count. -/
def unary_blocks : Nat → RiceCoder → List Nat → Nat → RiceCoder × List Nat × Nat
  | 0, c, output, remaining => (c, output, remaining)
  | fuel + 1, c, output, remaining =>
    if 32 ≤ remaining then
      let c₁ := write_bits_to_buffer c 0xFFFFFFFF 32
      let r := flush_buffer c₁ output
      unary_blocks fuel r.1 r.2 (remaining - 32)
    else (c, output, remaining)

/-- `encode(&mut self, value: u32, output: &mut Vec<u8>)` for divisor
exponent `K`. -/
def encode (K : Nat) (c : RiceCoder) (value : Nat) (output : List Nat) :
    RiceCoder × List Nat :=
  let quotient := value >>> K
  let remainder := value &&& ((1 <<< K) - 1)
  let r := unary_blocks quotient c output quotient
  let c₁ := r.1
  let remaining := r.2.2
  let c₂ := if 0 < remaining
    then write_bits_to_buffer c₁ ((1 <<< remaining) - 1) remaining
    else c₁
  let c₃ := write_bits_to_buffer c₂ 0 1
  let c₄ := write_bits_to_buffer c₃ remainder K
  flush_buffer c₄ r.2.1

/-- `finalize(&mut self, output: &mut Vec<u8>)`: zero-pad the pending bits
to a whole byte and flush. -/
def finalize (c : RiceCoder) (output : List Nat) : RiceCoder × List Nat :=
  if 0 < c.buffer_len then
    flush_buffer (write_bits_to_buffer c 0 (8 - c.buffer_len)) output
  else (c, output)

/-- `encode_vals(&mut self, values: &[u32], output: &mut Vec<u8>)`:
`assert!(values.len() < 256)` (modelled as `none` = panic, checked before
any byte is written), then push the count byte (`values.len() as u8`),
encode each value, and finalize. -/
def encode_vals (K : Nat) (c : RiceCoder) (values : List Nat) (output : List Nat) :
    Option (RiceCoder × List Nat) :=
  if values.length < 256 then
    let output₁ := output ++ [values.length % 2 ^ 8]
    let r := values.foldl (fun acc v => encode K acc.1 v acc.2) (c, output₁)
    some (finalize r.1 r.2)
  else none

/-! ## Decoder

The Rust decoder tracks `(byte_pos: usize, bit_pos: u8)` with
`bit_pos ∈ [0, 8)`; we represent that pair by the absolute bit index
`pos = 8 * byte_pos + bit_pos`.  The source's updates
(`bit_pos = (bit_pos + 1) % 8`, advancing `byte_pos` on wrap) correspond
exactly to `pos + 1`. -/

/-- `read_bit`: `None` once `byte_pos` reaches `input.len()`, otherwise the
bit `(input[byte_pos] >> (7 - bit_pos)) & 1 == 1` and the advanced
position. -/
def read_bit (input : List Nat) (pos : Nat) : Option (Bool × Nat) :=
  if input.length ≤ pos / 8 then none
  else some (((input.getD (pos / 8) 0 >>> (7 - pos % 8)) &&& 1) == 1, pos + 1)

/-- The `for _ in 0..num_bits` loop of `read_bits`, accumulating
`value = (value << 1) | bit` and failing if any bit is unavailable. -/
def read_bits_loop (input : List Nat) : Nat → Nat → Nat → Option (Nat × Nat)
  | 0, value, pos => some (value, pos)
  | num_bits + 1, value, pos =>
    match read_bit input pos with
    | some (bit, pos₁) =>
      read_bits_loop input num_bits ((value <<< 1) ||| (if bit then 1 else 0)) pos₁
    | none => none

/-- `read_bits(input, num_bits, ..)`. -/
def read_bits (input : List Nat) (num_bits : Nat) (pos : Nat) : Option (Nat × Nat) :=
  read_bits_loop input num_bits 0 pos

/-- The unary-quotient loop `while let Some(bit) = read_bit(..)` of
`decode`: count 1-bits until a 0-bit (third component `false`) or input
exhaustion (third component `true`).  A successful read advances `pos` and
requires `pos / 8 < input.length`, so from position `pos` at most
`8 * input.length - pos` one-bits can be read; call-site fuel
`8 * input.length + 1` therefore always reaches a terminating 0-bit or the
exhaustion case before running out. -/
def read_unary (input : List Nat) : Nat → Nat → Nat → Nat × Nat × Bool
  | 0, pos, quotient => (quotient, pos, true)
  | fuel + 1, pos, quotient =>
    match read_bit input pos with
    | none => (quotient, pos, true)
    | some (bit, pos₁) =>
      if bit then read_unary input fuel pos₁ (quotient + 1)
      else (quotient, pos₁, false)

/-- The main decode loop
`while byte_pos < input.len() && results.len() < total_values`.
Each completed iteration appends exactly one value, so the fuel
`total_values - results.length` (initially `total_values`) matches the
second loop condition: fuel `0` is exactly `results.len() == total_values`.
The pushed value is `(quotient << K) + remainder` in `u32`, i.e.
`(quotient <<< K) % 2 ^ 32 + remainder` (the addition cannot wrap since
`remainder < 2 ^ K`). -/
def decode_loop (K : Nat) (input : List Nat) : Nat → Nat → List Nat → List Nat
  | 0, _, results => results
  | fuel + 1, pos, results =>
    if pos / 8 < input.length then
      let r := read_unary input (8 * input.length + 1) pos 0
      match read_bits input K r.2.1 with
      | some (remainder, pos₂) =>
        decode_loop K input fuel pos₂
          (results ++ [(r.1 <<< K) % 2 ^ 32 + remainder])
      | none => results
    else results

/-- `decode(input: &[u8]) -> Vec<u32>`: reads the count prefix `input[0]`
(a panic — modelled as `none` — on empty input), then decodes at most that
many values from the remaining bytes. -/
def decode (K : Nat) (input : List Nat) : Option (List Nat) :=
  match input with
  | [] => none
  | total :: rest => some (decode_loop K rest total 0 [])


/-! ## Helper lemmas -/

/-- Once the absolute bit position has passed the last bit of the input,
`read_bit` signals exhaustion. -/
theorem read_bit_none_of_le (input : List Nat) (pos : Nat)
    (h : 8 * input.length ≤ pos) : read_bit input pos = none := by
  unfold read_bit
  rw [if_pos ((Nat.le_div_iff_mul_le (by norm_num)).mpr (by omega))]

/-- A successful `read_bit` advances the position by exactly one bit. -/
theorem read_bit_advance (input : List Nat) (pos : Nat) (bit : Bool) (pos₁ : Nat)
    (h : read_bit input pos = some (bit, pos₁)) : pos₁ = pos + 1 := by
  unfold read_bit at h
  split at h
  · exact absurd h (by simp)
  · simp only [Option.some.injEq, Prod.mk.injEq] at h
    exact h.2.symm

/-- If `read_unary` reports exhaustion and its fuel exceeds the number of
bits that could still be read (`fuel + pos > 8 * |input|`), then the
position it stops at really has no readable bit: the `true` flag can only
come from `read_bit` returning `none`, never from running out of fuel. -/
theorem read_unary_exhausted (input : List Nat) :
    ∀ fuel pos quotient, 8 * input.length < fuel + pos →
      (read_unary input fuel pos quotient).2.2 = true →
      read_bit input (read_unary input fuel pos quotient).2.1 = none := by
  intro fuel
  induction fuel with
  | zero =>
    intro pos quotient hf _
    exact read_bit_none_of_le input pos (by omega)
  | succ n ih =>
    intro pos quotient hf hex
    rw [read_unary] at hex ⊢
    cases hrb : read_bit input pos with
    | none => simp [hrb]
    | some b =>
      obtain ⟨bit, pos₁⟩ := b
      have hadv := read_bit_advance input pos bit pos₁ hrb
      subst hadv
      rw [hrb] at hex
      cases bit with
      | false => simp at hex
      | true =>
        dsimp only at hex ⊢
        exact ih (pos + 1) (quotient + 1) (by omega) hex

/-- Reading at least one bit from an exhausted position fails. -/
theorem read_bits_none_of_exhausted (input : List Nat) (num_bits pos : Nat)
    (h1 : 1 ≤ num_bits) (h : read_bit input pos = none) :
    read_bits input num_bits pos = none := by
  obtain ⟨m, rfl⟩ : ∃ m, num_bits = m + 1 := ⟨num_bits - 1, by omega⟩
  simp [read_bits, read_bits_loop, h]

/-- The unary loop's result does not depend on the fuel, once the fuel
covers the bits remaining in the input: the loop genuinely terminates. -/
theorem read_unary_fuel_irrelevant (input : List Nat) :
    ∀ f₁ f₂ pos quotient, 8 * input.length + 1 - pos ≤ f₁ →
      8 * input.length + 1 - pos ≤ f₂ →
      read_unary input f₁ pos quotient = read_unary input f₂ pos quotient := by
  intro f₁
  induction f₁ with
  | zero =>
    intro f₂ pos quotient h₁ h₂
    cases f₂ with
    | zero => rfl
    | succ m =>
      rw [read_unary, read_unary,
        read_bit_none_of_le input pos (by omega)]
  | succ n ih =>
    intro f₂ pos quotient h₁ h₂
    cases f₂ with
    | zero =>
      rw [read_unary, read_unary,
        read_bit_none_of_le input pos (by omega)]
    | succ m =>
      rw [read_unary, read_unary]
      cases hrb : read_bit input pos with
      | none => rfl
      | some b =>
        obtain ⟨bit, pos₁⟩ := b
        have hadv := read_bit_advance input pos bit pos₁ hrb
        subst hadv
        cases bit with
        | false => rfl
        | true =>
          dsimp only
          exact ih m (pos + 1) (quotient + 1) (by omega) (by omega)

/-- Each completed iteration of the decode loop appends exactly one value,
so the loop can grow the result list by at most its fuel. -/
theorem decode_loop_length (K : Nat) (input : List Nat) :
    ∀ fuel pos results,
      (decode_loop K input fuel pos results).length ≤ results.length + fuel := by
  intro fuel
  induction fuel with
  | zero => intro pos results; exact Nat.le_refl _
  | succ n ih =>
    intro pos results
    rw [decode_loop]
    split
    · dsimp only
      cases hrb : read_bits input K
          (read_unary input (8 * input.length + 1) pos 0).2.1 with
      | none => simp [hrb]
      | some v =>
        obtain ⟨remainder, pos₂⟩ := v
        dsimp only
        refine le_trans (ih pos₂ _) ?_
        simp only [List.length_append, List.length_singleton]
        omega
    · simp

/-- On a non-empty input slice, `estimate_optimal_k` is the bit length of
the sorted values' entry at the (clamped, rounded) percentile index. -/
theorem estimate_optimal_k_eq (values : List Nat) (p : ℚ) (hne : values ≠ []) :
    estimate_optimal_k values p =
      32 - (32 - Nat.size ((List.insertionSort (· ≤ ·) values).getD
        (min (round (p / 100 * ((List.insertionSort (· ≤ ·) values).length : ℚ))).toNat
          ((List.insertionSort (· ≤ ·) values).length - 1)) 0)) := by
  unfold estimate_optimal_k
  rw [if_neg hne]

/-! ## Claims -/

/-- C1: the claimed round-trip property (`decode(encode_vals(values), k)
== values` for every `k ∈ [0,31]` and every sequence of at most 255 `u32`
values) fails on the code.  With `k = 27`, encoding
`[402653311, 4160749568]` enters the second `encode` call with 7 pending
bits, writes 31 one-bits, the terminating zero and a 27-bit remainder
without an intermediate flush, pushing `buffer_len` to 66: the
`buffer <<= num_bits` shift drops the top two pending bits of the `u64`
accumulator, and decoding returns `402653215` instead of `402653311`. -/
theorem c1_roundtrip_fails_at_k27 :
    (encode_vals 27 RiceCoder.new [402653311, 4160749568] []).bind
        (fun r => decode 27 r.2) = some [402653215, 4160749568]
    ∧ ([402653215, 4160749568] : List Nat) ≠ [402653311, 4160749568] := by
  constructor
  · rfl
  · decide

/-- C2: the claimed invariant "the pending-bit buffer never holds more
than 64 valid bits" fails on the code: on the same `k = 27` input as C1
the ghost `max_buffer_len` field records that `buffer_len` reached 66
right after the remainder write, so two written bits were shifted out of
the 64-bit accumulator and lost. -/
theorem c2_buffer_holds_66_bits :
    (encode_vals 27 RiceCoder.new [402653311, 4160749568] []).map
        (fun r => r.1.max_buffer_len) = some 66 ∧ 64 < 66 := by
  constructor
  · rfl
  · decide

/-- C3 counterexample: with `k = 0` the claim "if input exhaustion occurs
while reading the unary run, decode stops without appending a partial
value" is false.  In `[2, 255]` the data byte `0xFF` is a unary run
truncated before any terminating 0-bit, so no value is fully decodable,
yet `decode` appends the partial quotient 8 (because `read_bits` with
`num_bits = 0` succeeds vacuously after the exhausted unary loop). -/
theorem c3_truncation_k0_counterexample :
    decode 0 [2, 255] = some [8] ∧ ([8] : List Nat) ≠ [] := by
  constructor
  · rfl
  · decide

/-- C3 (amended): for every `k ≥ 1`, whenever the unary-run read reports
input exhaustion (rather than a terminating 0-bit), the decode loop
returns the values accumulated so far without appending a partial value:
the subsequent `k`-bit remainder read necessarily fails at the exhausted
position and the loop breaks. -/
theorem c3_no_partial_value_for_positive_k (K : Nat) (input : List Nat)
    (fuel pos : Nat) (results : List Nat) (hK : 1 ≤ K)
    (hex : (read_unary input (8 * input.length + 1) pos 0).2.2 = true) :
    decode_loop K input fuel pos results = results := by
  cases fuel with
  | zero => rfl
  | succ n =>
    rw [decode_loop]
    split
    · dsimp only
      rw [read_bits_none_of_exhausted input K _ hK
        (read_unary_exhausted input (8 * input.length + 1) pos 0 (by omega) hex)]
    · rfl

/-- Witness for C3 (amended): at `k = 1` on the all-ones byte `0xFF`, the
unary read exhausts the input and the decode loop appends nothing. -/
theorem c3_no_partial_value_for_positive_k_witness :
    (read_unary [255] (8 * [255].length + 1) 0 0).2.2 = true
    ∧ decode_loop 1 [255] 1 0 [] = [] :=
  ⟨by decide,
   c3_no_partial_value_for_positive_k 1 [255] 1 0 [] (by decide) (by decide)⟩

/-- C4: for every supported `k` (`0–31`, the range of `create_rice_coder`)
and non-empty input, `decode` returns a result (no panic, no
out-of-bounds read: every byte access in `read_bit` is guarded by
`byte_pos < input.len()`), and the unary loop — the only unbounded loop in
`decode` — terminates: its result is independent of the fuel once the fuel
covers the bits remaining in the input. -/
theorem c4_decode_never_panics_and_terminates :
    (∀ (K : Nat) (input : List Nat), K ≤ 31 → input ≠ [] →
      (decode K input).isSome = true)
    ∧ ∀ (input : List Nat) (f₁ f₂ pos quotient : Nat),
        8 * input.length + 1 - pos ≤ f₁ → 8 * input.length + 1 - pos ≤ f₂ →
        read_unary input f₁ pos quotient = read_unary input f₂ pos quotient := by
  constructor
  · intro K input _ hne
    cases input with
    | nil => exact absurd rfl hne
    | cons total rest => rfl
  · intro input f₁ f₂ pos quotient h₁ h₂
    exact read_unary_fuel_irrelevant input f₁ f₂ pos quotient h₁ h₂

/-- Witness for C4 at concrete inputs. -/
theorem c4_decode_never_panics_and_terminates_witness :
    (decode 5 [1, 255]).isSome = true
    ∧ read_unary [7] 9 0 0 = read_unary [7] 12 0 0 :=
  ⟨c4_decode_never_panics_and_terminates.1 5 [1, 255] (by decide) (by decide),
   c4_decode_never_panics_and_terminates.2 [7] 9 12 0 0 (by decide) (by decide)⟩

/-- C5: `encode_vals` succeeds on exactly 255 values and panics
(`assert!(values.len() < 256)`, modelled as `none`) on 256 or more; the
assertion is evaluated before the count byte or any codeword byte is
appended, so the failing case writes nothing. -/
theorem c5_count_prefix_boundary :
    (∀ (K : Nat) (c : RiceCoder) (values output : List Nat),
      values.length = 255 → (encode_vals K c values output).isSome = true)
    ∧ ∀ (K : Nat) (c : RiceCoder) (values output : List Nat),
        256 ≤ values.length → encode_vals K c values output = none := by
  constructor
  · intro K c values output h
    unfold encode_vals
    rw [if_pos (by omega)]
    rfl
  · intro K c values output h
    unfold encode_vals
    rw [if_neg (by omega)]

/-- Witness for C5: 255 zeros are accepted, 256 zeros are rejected. -/
theorem c5_count_prefix_boundary_witness :
    (encode_vals 0 RiceCoder.new (List.replicate 255 0) []).isSome = true
    ∧ encode_vals 0 RiceCoder.new (List.replicate 256 0) [] = none :=
  ⟨c5_count_prefix_boundary.1 0 RiceCoder.new (List.replicate 255 0) []
      (List.length_replicate 255 0),
   c5_count_prefix_boundary.2 0 RiceCoder.new (List.replicate 256 0) []
      (by rw [List.length_replicate])⟩

/-- C6: `estimate_optimal_k` is monotone in the percentile for a fixed
non-empty value slice: a larger percentile selects a no-smaller index into
the ascending sorted copy, hence a no-smaller value, hence a no-smaller
bit length. -/
theorem c6_estimate_optimal_k_monotone (values : List Nat) (p₁ p₂ : ℚ)
    (hne : values ≠ []) (hp : p₁ ≤ p₂) :
    estimate_optimal_k values p₁ ≤ estimate_optimal_k values p₂ := by
  rw [estimate_optimal_k_eq values p₁ hne, estimate_optimal_k_eq values p₂ hne]
  set S := List.insertionSort (· ≤ ·) values with hS
  have hsorted : S.Sorted (· ≤ ·) := List.sorted_insertionSort _ values
  have hlen : 0 < S.length := by
    rw [hS, List.length_insertionSort]
    exact List.length_pos.mpr hne
  set i₁ := min (round (p₁ / 100 * (S.length : ℚ))).toNat (S.length - 1) with hi₁
  set i₂ := min (round (p₂ / 100 * (S.length : ℚ))).toNat (S.length - 1) with hi₂
  have hii : i₁ ≤ i₂ := by
    refine min_le_min (Int.toNat_le_toNat ?_) (le_refl _)
    rw [round_eq, round_eq]
    refine Int.floor_mono (add_le_add_right ?_ _)
    exact mul_le_mul_of_nonneg_right ((div_le_div_iff_of_pos_right (by norm_num)).mpr hp)
      (by positivity)
  have h₁lt : i₁ < S.length := by
    have := min_le_right (round (p₁ / 100 * (S.length : ℚ))).toNat (S.length - 1)
    omega
  have h₂lt : i₂ < S.length := by
    have := min_le_right (round (p₂ / 100 * (S.length : ℚ))).toNat (S.length - 1)
    omega
  rw [List.getD_eq_get S 0 h₁lt, List.getD_eq_get S 0 h₂lt]
  have hval : S.get ⟨i₁, h₁lt⟩ ≤ S.get ⟨i₂, h₂lt⟩ :=
    hsorted.rel_get_of_le hii
  have hsz := Nat.size_le_size hval
  omega

/-- Witness for C6: the 50th and 90th percentiles of `[1..8]`. -/
theorem c6_estimate_optimal_k_monotone_witness :
    estimate_optimal_k [1, 2, 3, 4, 5, 6, 7, 8] 50 ≤
      estimate_optimal_k [1, 2, 3, 4, 5, 6, 7, 8] 90 :=
  c6_estimate_optimal_k_monotone [1, 2, 3, 4, 5, 6, 7, 8] 50 90
    (by decide) (by norm_num)

/-- C7: the concrete scenario from the source's tests: encoding
`[37, 12, 5, 150, 255, 0, 10]` with `k = 3` and decoding reproduces the
sequence, and `estimate_optimal_k([1..8], 50) = 3`,
`estimate_optimal_k([1..8], 90) = 4`. -/
theorem c7_concrete_scenario :
    (encode_vals 3 RiceCoder.new [37, 12, 5, 150, 255, 0, 10] []).bind
        (fun r => decode 3 r.2) = some [37, 12, 5, 150, 255, 0, 10]
    ∧ estimate_optimal_k [1, 2, 3, 4, 5, 6, 7, 8] 50 = 3
    ∧ estimate_optimal_k [1, 2, 3, 4, 5, 6, 7, 8] 90 = 4 := by
  refine ⟨rfl, ?_, ?_⟩
  · rw [estimate_optimal_k_eq _ _ (by decide)]
    norm_num [show List.insertionSort (· ≤ ·) [1, 2, 3, 4, 5, 6, 7, 8] =
        ([1, 2, 3, 4, 5, 6, 7, 8] : List Nat) from by decide, round_eq]
    show 32 - (32 - Nat.size 5) = 3
    rw [show Nat.size 5 = 3 from
      le_antisymm (Nat.size_le.mpr (by norm_num)) (Nat.lt_size.mpr (by norm_num))]
  · rw [estimate_optimal_k_eq _ _ (by decide)]
    norm_num [show List.insertionSort (· ≤ ·) [1, 2, 3, 4, 5, 6, 7, 8] =
        ([1, 2, 3, 4, 5, 6, 7, 8] : List Nat) from by decide, round_eq]
    show 32 - (32 - Nat.size 8) = 4
    rw [show Nat.size 8 = 4 from
      le_antisymm (Nat.size_le.mpr (by norm_num)) (Nat.lt_size.mpr (by norm_num))]

/-- C8: `estimate_optimal_k` on the empty slice returns 0 for every
percentile (the early-return branch), and `encode_vals` on the empty
sequence emits exactly the count byte 0 and nothing else (`finalize` is a
no-op on the empty buffer). -/
theorem c8_empty_input :
    (∀ p : ℚ, estimate_optimal_k [] p = 0)
    ∧ ∀ K : Nat, (encode_vals K RiceCoder.new [] []).map Prod.snd = some [0] :=
  ⟨fun _ => rfl, fun _ => rfl⟩

/-- Witness for C8 at a concrete percentile and `k`. -/
theorem c8_empty_input_witness :
    estimate_optimal_k [] 37 = 0
    ∧ (encode_vals 5 RiceCoder.new [] []).map Prod.snd = some [0] :=
  ⟨c8_empty_input.1 37, c8_empty_input.2 5⟩

/-- C9: `decode` on the empty byte sequence hits the unguarded `input[0]`
count-prefix read, an out-of-bounds panic (modelled as `none`), for every
`k`; it does not return an empty result. -/
theorem c9_decode_empty_input_panics : ∀ K : Nat, decode K [] = none :=
  fun _ => rfl

/-- Witness for C9 at a concrete `k`. -/
theorem c9_decode_empty_input_panics_witness : decode 6 [] = none :=
  c9_decode_empty_input_panics 6

/-- C10: `decode` never returns more values than the count prefix
`input[0]` announces: the loop guard `results.len() < total_values` stops
the loop, so the zero-bit padding added by `finalize` is never decoded as
spurious trailing values. -/
theorem c10_decode_length_bounded (K total : Nat) (rest out : List Nat)
    (hK : K ≤ 31) (h : decode K (total :: rest) = some out) :
    out.length ≤ total := by
  have hout : decode_loop K rest total 0 [] = out := by
    have : some (decode_loop K rest total 0 []) = some out := h
    exact Option.some.inj this
  have := decode_loop_length K rest total 0 []
  rw [hout] at this
  simpa using this

/-- Witness for C10: a count byte of 1 with no data bytes decodes to at
most one value. -/
theorem c10_decode_length_bounded_witness :
    decode 3 [1] = some [] ∧ ([] : List Nat).length ≤ 1 :=
  ⟨rfl, c10_decode_length_bounded 3 1 [] [] (by decide) rfl⟩
